import Mathlib

/-
Verification development for the mghash repository.

The embedding covers:
  - the SHA-256 digest (crypto/sha256), modelled over Nat with explicit
    reduction modulo 2^32;
  - canonical JSON serialization (gibson042/canonicaljson-go), modelled as a
    JSON value tree with a deterministic encoder that sorts object members;
  - JRule and its RuleHash / ContentHash / Run methods;
  - the file hashing helpers hashFile and fillWithFileHashes, over an explicit
    filesystem snapshot in which a path is absent, unreadable, or present with
    a byte content;
  - the skip engine Fn.Run, over oracles for the rule and the hash database;
  - the sqlite-backed hash store DB.Has / DB.Add, modelled as a table of
    (hash, unix_secs) rows together with the three SQL statements the source
    text contains, where executing a statement with the wrong number of bound
    parameters is an error, as in database/sql.
-/

namespace Mghash

/-! ## Bytes, 32-bit words, SHA-256 -/

/-- A hash value, as a byte string. -/
abbrev Hash := List Nat

/-- Reduction modulo 2^32, the word size of SHA-256 arithmetic. -/
def mod32 (n : Nat) : Nat := n % 4294967296

/-- Rotation of a 32-bit word to the right by k bit positions. -/
def rotr32 (k x : Nat) : Nat := mod32 ((x >>> k) ||| (x <<< (32 - k)))

/-- Bitwise complement of a 32-bit word. -/
def not32 (x : Nat) : Nat := x ^^^ 4294967295

/-- The bitwise choice function of the compression loop. -/
def ch32 (x y z : Nat) : Nat := (x &&& y) ^^^ (not32 x &&& z)

/-- The bitwise majority function of the compression loop. -/
def maj32 (x y z : Nat) : Nat := (x &&& y) ^^^ (x &&& z) ^^^ (y &&& z)

/-- The upper-case sigma-zero mixing function of the compression loop. -/
def bigSig0 (x : Nat) : Nat := rotr32 2 x ^^^ rotr32 13 x ^^^ rotr32 22 x

/-- The upper-case sigma-one mixing function of the compression loop. -/
def bigSig1 (x : Nat) : Nat := rotr32 6 x ^^^ rotr32 11 x ^^^ rotr32 25 x

/-- The lower-case sigma-zero mixing function of the message schedule. -/
def smallSig0 (x : Nat) : Nat := rotr32 7 x ^^^ rotr32 18 x ^^^ (x >>> 3)

/-- The lower-case sigma-one mixing function of the message schedule. -/
def smallSig1 (x : Nat) : Nat := rotr32 17 x ^^^ rotr32 19 x ^^^ (x >>> 10)

/-- The 64 round constants of SHA-256, written in decimal. -/
def sha256K : List Nat :=
  [1116352408, 1899447441, 3049323471, 3921009573, 961987163, 1508970993,
   2453635748, 2870763221, 3624381080, 310598401, 607225278, 1426881987,
   1925078388, 2162078206, 2614888103, 3248222580, 3835390401, 4022224774,
   264347078, 604807628, 770255983, 1249150122, 1555081692, 1996064986,
   2554220882, 2821834349, 2952996808, 3210313671, 3336571891, 3584528711,
   113926993, 338241895, 666307205, 773529912, 1294757372, 1396182291,
   1695183700, 1986661051, 2177026350, 2456956037, 2730485921, 2820302411,
   3259730800, 3345764771, 3516065817, 3600352804, 4094571909, 275423344,
   430227734, 506948616, 659060556, 883997877, 958139571, 1322822218,
   1537002063, 1747873779, 1955562222, 2024104815, 2227730452, 2361852424,
   2428436474, 2756734187, 3204031479, 3329325298]

/-- The eight-word starting state of SHA-256, written in decimal. -/
def sha256Init : List Nat :=
  [1779033703, 3144134277, 1013904242, 2773480762,
   1359893119, 2600822924, 528734635, 1541459225]

/-- A 64-bit big-endian byte encoding of a number. -/
def be64 (n : Nat) : List Nat :=
  [(n >>> 56) % 256, (n >>> 48) % 256, (n >>> 40) % 256, (n >>> 32) % 256,
   (n >>> 24) % 256, (n >>> 16) % 256, (n >>> 8) % 256, n % 256]

/-- A 32-bit big-endian byte encoding of a word. -/
def be32 (w : Nat) : List Nat :=
  [(w >>> 24) % 256, (w >>> 16) % 256, (w >>> 8) % 256, w % 256]

/-- SHA-256 message padding: a single 0x80 byte, zeros up to 56 modulo 64, and
the message bit length as a 64-bit big-endian number. -/
def padMessage (msg : List Nat) : List Nat :=
  msg ++ 0x80 :: List.replicate ((120 - (msg.length + 1) % 64) % 64) 0 ++ be64 (8 * msg.length)

/-- Split a byte list into 64-byte blocks. -/
def toBlocks (l : List Nat) : List (List Nat) :=
  if h : l = [] then [] else l.take 64 :: toBlocks (l.drop 64)
termination_by l.length
decreasing_by
  simp only [List.length_drop]
  have hpos : 0 < l.length := List.length_pos.mpr h
  omega

/-- Combine big-endian bytes into 32-bit words. -/
def bytesToWords : List Nat → List Nat
  | a :: b :: c :: d :: rest => (((a * 256 + b) * 256 + c) * 256 + d) :: bytesToWords rest
  | _ => []

/-- One extension step of the SHA-256 message schedule, on the reversed
schedule computed so far. -/
def scheduleStep (rev : List Nat) : List Nat :=
  mod32 (smallSig1 (rev.getD 1 0) + rev.getD 6 0 + smallSig0 (rev.getD 14 0) + rev.getD 15 0) :: rev

/-- The 64-word SHA-256 message schedule of one block. -/
def schedule (first16 : List Nat) : List Nat :=
  ((List.range 48).foldl (fun rev _ => scheduleStep rev) first16.reverse).reverse

/-- One SHA-256 compression round on the 8-word working state. -/
def compressStep (st : List Nat) (kw : Nat × Nat) : List Nat :=
  match st with
  | [a, b, c, d, e, f, g, hh] =>
    let t1 := mod32 (hh + bigSig1 e + ch32 e f g + kw.1 + kw.2)
    let t2 := mod32 (bigSig0 a + maj32 a b c)
    [mod32 (t1 + t2), a, b, c, mod32 (d + t1), e, f, g]
  | other => other

/-- SHA-256 compression of one 64-byte block into the hash state. -/
def compressBlock (h0 : List Nat) (block : List Nat) : List Nat :=
  let ws := schedule (bytesToWords block)
  let st := (sha256K.zip ws).foldl compressStep h0
  (h0.zip st).map (fun p => mod32 (p.1 + p.2))

/-- The SHA-256 digest of a byte string, as 32 bytes.  Models crypto/sha256. -/
def sha256 (msg : List Nat) : List Nat :=
  (((toBlocks (padMessage msg)).foldl compressBlock sha256Init).map be32).flatten

/-! ## Canonical JSON serialization -/

/-- Lowercase hexadecimal digit. -/
def hexDigit (n : Nat) : Char :=
  if n < 10 then Char.ofNat (48 + n) else Char.ofNat (87 + n)

/-- Escape one character of a JSON string, following the canonical JSON
serialization of the canonicaljson package: two-character escapes for the
quote, the backslash and the common control characters, a lowercase u escape
for the remaining control characters, and every other character verbatim. -/
def escapeChar (c : Char) : String :=
  if c = '"' then ("\\\"")
  else if c = '\\' then ("\\\\")
  else if c = '\x08' then ("\\b")
  else if c = '\x09' then ("\\t")
  else if c = '\x0a' then ("\\n")
  else if c = '\x0c' then ("\\f")
  else if c = '\x0d' then ("\\r")
  else if c.toNat < 32 then ("\\u00" ++ String.mk [hexDigit (c.toNat / 16), hexDigit (c.toNat % 16)])
  else String.singleton c

/-- A JSON string literal with its surrounding quotes. -/
def jsonString (s : String) : String :=
  ("\"" ++ String.join (s.toList.map escapeChar) ++ "\"")

/-- UTF-8 bytes of a string. -/
def strBytes (s : String) : List Nat := s.toUTF8.toList.map (fun b => b.toNat)

/-- The standard base64 alphabet character of an index below 64. -/
def base64Char (n : Nat) : Char :=
  if n < 26 then Char.ofNat (65 + n)
  else if n < 52 then Char.ofNat (97 + (n - 26))
  else if n < 62 then Char.ofNat (48 + (n - 52))
  else if n = 62 then '+' else '/'

/-- Standard base64 with padding, the encoding/json serialization of a byte
slice. -/
def base64Encode : List Nat → String
  | [] => ("")
  | [a] =>
    String.mk [base64Char (a >>> 2), base64Char ((a &&& 3) <<< 4), '=', '=']
  | [a, b] =>
    String.mk [base64Char (a >>> 2), base64Char (((a &&& 3) <<< 4) ||| (b >>> 4)),
               base64Char ((b &&& 15) <<< 2), '=']
  | a :: b :: c :: rest =>
    String.mk [base64Char (a >>> 2), base64Char (((a &&& 3) <<< 4) ||| (b >>> 4)),
               base64Char (((b &&& 15) <<< 2) ||| (c >>> 6)), base64Char (c &&& 63)]
      ++ base64Encode rest

/-- A canonical JSON value, restricted to the shapes the hashing code
produces.  An object carries its members already in canonical sorted key
order. -/
inductive CJ where
  | null
  | str (s : String)
  | arr (elems : List CJ)
  | obj (members : List (String × CJ))

mutual

/-- Canonical JSON serialization of a value. -/
def CJ.encode : CJ → String
  | .null => ("null")
  | .str s => jsonString s
  | .arr xs => ("[" ++ encodeElems xs ++ "]")
  | .obj ms => ("\x7b" ++ encodeMembers ms ++ "\x7d")

/-- Comma-separated serialization of array elements. -/
def encodeElems : List CJ → String
  | [] => ("")
  | [x] => CJ.encode x
  | x :: xs => (CJ.encode x ++ "," ++ encodeElems xs)

/-- Comma-separated serialization of object members. -/
def encodeMembers : List (String × CJ) → String
  | [] => ("")
  | [(k, v)] => (jsonString k ++ ":" ++ CJ.encode v)
  | (k, v) :: ms => (jsonString k ++ ":" ++ CJ.encode v ++ "," ++ encodeMembers ms)

end

/-! ## JRule and its hash functions -/

/-- Lexicographic sorting of a list of strings; models sort.Strings. -/
def sortStrings (l : List String) : List String :=
  List.insertionSort (fun a b => a ≤ b) l

/-- A build rule: source files, target files, the command producing the
targets from the sources, and a working directory. -/
structure JRule where
  Sources : List String
  Targets : List String
  Command : List String
  Dir : String

/-- The canonical JSON value whose serialization RuleHash digests: the rule
rebuilt with copied and sorted sources and targets, the command, and the
working directory left at its zero value, exactly as the source rebuilds the
struct before marshaling.  Object members appear in canonical sorted key
order. -/
def ruleHashJson (jr : JRule) : CJ :=
  CJ.obj [("command", CJ.arr (jr.Command.map CJ.str)),
          ("dir", CJ.str ("")),
          ("sources", CJ.arr ((sortStrings jr.Sources).map CJ.str)),
          ("targets", CJ.arr ((sortStrings jr.Targets).map CJ.str))]

/-- RuleHash: the SHA-256 digest of the canonical JSON serialization of the
rule with sources and targets sorted; models JRule.RuleHash.  It performs no
file reads, so it takes no filesystem argument. -/
def JRule.RuleHash (jr : JRule) : Hash :=
  sha256 (strBytes (CJ.encode (ruleHashJson jr)))

/-- The state of one path in a filesystem snapshot: the file is absent, or it
exists but reading it fails with some message, or it is present with the given
bytes. -/
inductive FileState where
  | absent
  | unreadable (msg : String)
  | present (bytes : List Nat)
deriving DecidableEq

/-- A filesystem snapshot. -/
abbrev FS := String → FileState

/-- Tells whether reading the path fails although the file exists. -/
def FileState.isUnreadable : FileState → Bool
  | .unreadable _ => true
  | _ => false

/-- A file read error: either the path does not exist, which the caller
recognizes, or another failure such as a permission error. -/
inductive FileErr where
  | notExist (msg : String)
  | other (msg : String)

/-- Open a file and hash its byte stream; models hashFile.  Opening an absent
path fails with a not-exist error; an unreadable path fails with another
error, covering both a failing open and a failing read. -/
def hashFile (fs : FS) (path : String) : Except FileErr Hash :=
  match fs path with
  | .absent => Except.error (FileErr.notExist ("opening " ++ path ++ ": file does not exist"))
  | .unreadable msg => Except.error (FileErr.other ("opening " ++ path ++ ": " ++ msg))
  | .present bytes => Except.ok (sha256 bytes)

/-- Hash every file of a list; models fillWithFileHashes.  A not-exist error
becomes a nil hash for that file; any other error aborts with a wrapped
message.  The Go map is modelled as an association list in declaration
order. -/
def fillWithFileHashes (fs : FS) : List String → Except String (List (String × Option Hash))
  | [] => Except.ok []
  | file :: rest =>
    match hashFile fs file with
    | Except.error (FileErr.notExist _) =>
      (fillWithFileHashes fs rest).map (fun m => (file, none) :: m)
    | Except.error (FileErr.other msg) =>
      Except.error ("computing hash of " ++ file ++ ": " ++ msg)
    | Except.ok h => (fillWithFileHashes fs rest).map (fun m => (file, some h) :: m)

/-- The canonical JSON value of one per-file hash: base64 of the bytes when
the file exists, null when it does not, as encoding/json serializes a nil or
non-nil byte slice. -/
def optHashJson : Option Hash → CJ
  | none => CJ.null
  | some h => CJ.str (base64Encode h)

/-- The value bound to a key by a sequence of map writes: the last write
wins. -/
def lookupLast (entries : List (String × Option Hash)) (k : String) : Option Hash :=
  match entries.reverse.lookup k with
  | some v => v
  | none => none

/-- The canonical JSON object of a Go map from path to hash: member keys
sorted and deduplicated, each bound to the last value written. -/
def mapToObj (entries : List (String × Option Hash)) : List (String × CJ) :=
  ((sortStrings (entries.map Prod.fst)).dedup).map
    (fun k => (k, optHashJson (lookupLast entries k)))

/-- The canonical JSON value whose serialization ContentHash digests: the
sources map, the targets map and the command, with object members in
canonical sorted key order.  Canonical marshaling of this shape is total, so
the marshaling error branch of the source does not arise. -/
def contentHashJson (jr : JRule) (fs : FS) : Except String CJ :=
  match fillWithFileHashes fs jr.Sources with
  | Except.error e => Except.error ("computing source hash(es): " ++ e)
  | Except.ok src =>
    match fillWithFileHashes fs jr.Targets with
    | Except.error e => Except.error ("computing target hash(es): " ++ e)
    | Except.ok tgt =>
      Except.ok (CJ.obj [("command", CJ.arr (jr.Command.map CJ.str)),
                         ("sources", CJ.obj (mapToObj src)),
                         ("targets", CJ.obj (mapToObj tgt))])

/-- ContentHash: the SHA-256 digest of the canonical JSON serialization of
the per-file hashes of all sources and targets plus the command; models
JRule.ContentHash over a filesystem snapshot. -/
def JRule.ContentHash (jr : JRule) (fs : FS) : Except String Hash :=
  (contentHashJson jr fs).map (fun j => sha256 (strBytes (CJ.encode j)))

/-- The process start request Run builds: executable, argument vector and
working directory.  The wiring of the output streams under the verbosity flag
does not change the spawned command and is outside the model. -/
structure SpawnReq where
  exe : String
  args : List String
  dir : String
deriving DecidableEq

/-- Run: spawn Command[0] with arguments Command[1:] in directory Dir; models
JRule.Run.  The none result models the index-out-of-range panic that the
subscript Command[0] raises on an empty command. -/
def JRule.Run (jr : JRule) : Option SpawnReq :=
  match jr.Command with
  | [] => none
  | exe :: rest => some ⟨exe, rest, jr.Dir⟩

/-! ## The skip engine Fn.Run -/

/-- One invocation environment for Fn.Run: the outcome of the first
ContentHash call, the database Has answer per hash, the outcome of Rule.Run,
the outcome of the second ContentHash call, and the database Add answer per
hash. -/
structure RunEnv where
  contentHash1 : Except String Hash
  hasRes : Hash → Except String Bool
  runRes : Except String Unit
  contentHash2 : Except String Hash
  addRes : Hash → Except String Unit

/-- The observable outcome of one Fn.Run invocation: the returned error
value, whether Rule.Run was invoked, and the hashes passed to DB.Add. -/
structure FnOutcome where
  result : Except String Unit
  ranRule : Bool
  added : List Hash

/-- Fn.Run: compute the content hash, consult the database, and either stop
on a hit or run the rule, recompute the hash and record it; models the method
Fn.Run including its error wrapping.  The verbose log line on a hit is
outside the model. -/
def fnRun (env : RunEnv) : FnOutcome :=
  match env.contentHash1 with
  | Except.error e => ⟨Except.error ("computing content hash: " ++ e), false, []⟩
  | Except.ok h =>
    match env.hasRes h with
    | Except.error e => ⟨Except.error ("consulting hash DB: " ++ e), false, []⟩
    | Except.ok true => ⟨Except.ok (), false, []⟩
    | Except.ok false =>
      match env.runRes with
      | Except.error e => ⟨Except.error ("in Run: " ++ e), true, []⟩
      | Except.ok _ =>
        match env.contentHash2 with
        | Except.error e => ⟨Except.error ("recomputing content hash: " ++ e), true, []⟩
        | Except.ok h2 =>
          match env.addRes h2 with
          | Except.error e => ⟨Except.error e, true, [h2]⟩
          | Except.ok _ => ⟨Except.ok (), true, [h2]⟩

/-! ## The sqlite hash store -/

/-- One row of the hashes table: the hash blob and the last-access time in
Unix seconds.  The hash column is the primary key. -/
abbrev Row := Hash × Int

/-- The hashes table. -/
abbrev Table := List Row

/-- A parameter bound to a SQL statement. -/
inductive SqlParam where
  | blob (h : Hash)
  | int (n : Int)

/-- The three SQL statement texts of the sqlite store: the upsert constant q
of DB.Add, the eviction constant q2 of DB.Add, and the access-refreshing
update constant q of DB.Has. -/
inductive SqlStmt where
  | upsertHash
  | deleteExpired
  | updateAccess

/-- Insert a row or update the timestamp of the row with the same key; the
effect of the INSERT with ON CONFLICT DO UPDATE of DB.Add. -/
def upsertRow (h : Hash) (t : Int) : Table → Table
  | [] => [(h, t)]
  | r :: rest => if r.1 = h then (h, t) :: rest else r :: upsertRow h t rest

/-- Execute one statement with bound parameters against the table, returning
the affected row count and the new table.  Binding a parameter list that does
not match the placeholders of the statement text is an error before anything
executes, as in database/sql; the upsert declares two placeholders, the
other two statements one each. -/
def execStmt : SqlStmt → List SqlParam → Table → Except String (Nat × Table)
  | SqlStmt.upsertHash, [SqlParam.blob h, SqlParam.int t], tbl =>
    Except.ok (1, upsertRow h t tbl)
  | SqlStmt.updateAccess, [SqlParam.int t, SqlParam.blob h], tbl =>
    Except.ok (tbl.countP (fun r => decide (r.1 = h)),
               tbl.map (fun r => if r.1 = h then (r.1, t) else r))
  | SqlStmt.deleteExpired, [SqlParam.int cutoff], tbl =>
    Except.ok (tbl.countP (fun r => decide (r.2 < cutoff)),
               tbl.filter (fun r => decide (cutoff ≤ r.2)))
  | _, _, _ => Except.error ("wrong number of arguments")

/-- Has: refresh the last-access time of the hash with one UPDATE and report
whether any row was affected; models DB.Has, returning the possibly failing
answer together with the table state. -/
def DB.Has (tbl : Table) (h : Hash) (now : Int) : Except String Bool × Table :=
  match execStmt SqlStmt.updateAccess [SqlParam.int now, SqlParam.blob h] tbl with
  | Except.error e => (Except.error ("updating database: " ++ e), tbl)
  | Except.ok (aff, tbl1) => (Except.ok (decide (0 < aff)), tbl1)

/-- Add: upsert the hash with the statement q and, when a retention window is
configured, attempt the eviction step; models DB.Add.  The eviction step
executes the statement text q again, not q2, binding the single cutoff
parameter, exactly as the source does; keep is the retention window in
seconds and now - keep the cutoff time. -/
def DB.Add (keep : Int) (tbl : Table) (h : Hash) (now : Int) : Except String Unit × Table :=
  match execStmt SqlStmt.upsertHash [SqlParam.blob h, SqlParam.int now] tbl with
  | Except.error e => (Except.error ("adding hash to database: " ++ e), tbl)
  | Except.ok (_, tbl1) =>
    if 0 < keep then
      match execStmt SqlStmt.upsertHash [SqlParam.int (now - keep)] tbl1 with
      | Except.error e => (Except.error ("evicting expired database entries: " ++ e), tbl1)
      | Except.ok (_, tbl2) => (Except.ok (), tbl2)
    else (Except.ok (), tbl1)

/-- One later operation against the persisted table: an Add under some
retention configuration, or a Has, each at some time.  Reopening the file
with different options between operations is covered by the per-operation
keep. -/
inductive DbOp where
  | addOp (keep : Int) (h : Hash) (now : Int)
  | hasOp (h : Hash) (now : Int)

/-- Apply one operation to the persisted table. -/
def applyOp (tbl : Table) : DbOp → Table
  | DbOp.addOp keep h now => (DB.Add keep tbl h now).2
  | DbOp.hasOp h now => (DB.Has tbl h now).2

/-- Apply a sequence of operations to the persisted table. -/
def applyOps (tbl : Table) (ops : List DbOp) : Table := ops.foldl applyOp tbl

/-! ## Concrete instances used by the witnesses -/

/-- A concrete invocation environment whose rule action fails. -/
def envRunFails : RunEnv :=
  ⟨Except.ok [0], fun _ => Except.ok false, Except.error ("boom"),
   Except.ok [1], fun _ => Except.ok ()⟩

/-- A concrete invocation environment whose store already has the hash. -/
def envHit : RunEnv :=
  ⟨Except.ok [0], fun _ => Except.ok true, Except.error ("unused"),
   Except.ok [1], fun _ => Except.ok ()⟩

/-- A concrete filesystem snapshot with one present file. -/
def fsW1 : FS := fun p => if p = "a" then FileState.present [120] else FileState.absent

/-- A snapshot agreeing with fsW1 on the declared files of the witness rule
but differing on an undeclared path. -/
def fsW2 : FS :=
  fun p => if p = "a" then FileState.present [120]
    else if p = "z" then FileState.present [7] else FileState.absent

/-- The witness rule for the determinism and error-handling claims. -/
def jrC8 : JRule := ⟨["a"], ["b"], ["c"], ""⟩

/-- A snapshot in which every declared file of jrC8 is readable or absent. -/
def fsC8ok : FS := fun p => if p = "a" then FileState.present [1] else FileState.absent

/-- A snapshot in which the declared target of jrC8 exists but is
unreadable. -/
def fsC8bad : FS :=
  fun p => if p = "b" then FileState.unreadable ("permission denied") else FileState.absent

/-- The witness rule for the working-directory claim. -/
def jrC9 : JRule := ⟨[], [], ["c"], "x"⟩

/-- The everything-absent snapshot. -/
def fsC9 : FS := fun _ => FileState.absent

/-- The content hash of jrC9 under fsC9, written out through the embedding. -/
def hC9 : Hash :=
  sha256 (strBytes (CJ.encode (CJ.obj [("command", CJ.arr [CJ.str ("c")]),
    ("sources", CJ.obj []), ("targets", CJ.obj [])])))

/-! ## Sorting lemmas -/

/-- Sorting two permuted lists of strings gives the same list. -/
theorem sortStrings_eq_of_perm (l1 l2 : List String) (h : l1.Perm l2) :
    sortStrings l1 = sortStrings l2 :=
  List.eq_of_perm_of_sorted
    ((List.perm_insertionSort _ l1).trans (h.trans (List.perm_insertionSort _ l2).symm))
    (List.sorted_insertionSort _ l1)
    (List.sorted_insertionSort _ l2)

/-- Two lists of strings with the same sorted form are permutations of each
other. -/
theorem perm_of_sortStrings_eq (l1 l2 : List String) (h : sortStrings l1 = sortStrings l2) :
    l1.Perm l2 := by
  have p1 := (List.perm_insertionSort (fun a b : String => a ≤ b) l1).symm
  rw [show List.insertionSort (fun a b : String => a ≤ b) l1 = sortStrings l1 from rfl, h] at p1
  exact p1.trans (List.perm_insertionSort _ l2)

/-- Mapping the JSON string constructor over a list is injective. -/
theorem map_str_inj (l1 l2 : List String) (h : l1.map CJ.str = l2.map CJ.str) : l1 = l2 := by
  induction l1 generalizing l2 with
  | nil => cases l2 <;> simp_all
  | cons a t ih =>
    cases l2 with
    | nil => simp_all
    | cons b t2 =>
      simp only [List.map_cons, List.cons.injEq, CJ.str.injEq] at h
      exact h.1 ▸ congrArg _ (ih t2 h.2)

/-! ## Hash store lemmas -/

/-- The upserted key is present after an upsert. -/
theorem upsertRow_hasKey (h : Hash) (t : Int) (tbl : Table) :
    ∃ r ∈ upsertRow h t tbl, r.1 = h := by
  induction tbl with
  | nil => exact ⟨(h, t), by simp [upsertRow]⟩
  | cons r rest ih =>
    by_cases hr : r.1 = h
    · exact ⟨(h, t), by simp [upsertRow, hr]⟩
    · obtain ⟨r2, hr2, he2⟩ := ih
      exact ⟨r2, by simp [upsertRow, hr, hr2], he2⟩

/-- Every key present before an upsert is present after it. -/
theorem upsertRow_mono (h h2 : Hash) (t : Int) (tbl : Table)
    (hk : ∃ r ∈ tbl, r.1 = h2) : ∃ r ∈ upsertRow h t tbl, r.1 = h2 := by
  induction tbl with
  | nil => simp at hk
  | cons r rest ih =>
    obtain ⟨r2, hr2, he2⟩ := hk
    by_cases hr : r.1 = h
    · rcases List.mem_cons.mp hr2 with hcase | hcase
      · exact ⟨(h, t), by simp [upsertRow, hr], by rw [← he2, hcase, hr]⟩
      · exact ⟨r2, by simp [upsertRow, hr, hcase], he2⟩
    · rcases List.mem_cons.mp hr2 with hcase | hcase
      · exact ⟨r, by simp [upsertRow, hr], hcase ▸ he2⟩
      · obtain ⟨r3, hr3, he3⟩ := ih ⟨r2, hcase, he2⟩
        exact ⟨r3, by simp [upsertRow, hr, hr3], he3⟩

/-- The table after DB.Add is exactly the upsert of the hash: when a retention
window is configured the eviction step fails on parameter binding and leaves
the table unchanged, and without a window there is no eviction step. -/
theorem dbAdd_table (keep : Int) (tbl : Table) (h : Hash) (now : Int) :
    (DB.Add keep tbl h now).2 = upsertRow h now tbl := by
  by_cases hk : 0 < keep <;> simp [DB.Add, execStmt, hk]

/-- The answer of DB.Has is never an error and reports whether a row with the
key exists. -/
theorem dbHas_fst (tbl : Table) (h : Hash) (now : Int) :
    (DB.Has tbl h now).1
      = Except.ok (decide (0 < tbl.countP (fun r => decide (r.1 = h)))) := by
  simp [DB.Has, execStmt]

/-- The table after DB.Has has the same keys, with the matched timestamp
refreshed. -/
theorem dbHas_table (tbl : Table) (h : Hash) (now : Int) :
    (DB.Has tbl h now).2 = tbl.map (fun r => if r.1 = h then (r.1, now) else r) := by
  simp [DB.Has, execStmt]

/-- DB.Has answers true when a row with the key exists. -/
theorem dbHas_ok_true (tbl : Table) (h : Hash) (now : Int)
    (hk : ∃ r ∈ tbl, r.1 = h) : (DB.Has tbl h now).1 = Except.ok true := by
  rw [dbHas_fst]
  have hpos : 0 < tbl.countP (fun r => decide (r.1 = h)) := by
    rw [List.countP_pos_iff]
    obtain ⟨r, hr, he⟩ := hk
    exact ⟨r, hr, by simp [he]⟩
  simp [hpos]

/-- Every key present in the table survives any later operation. -/
theorem applyOp_mono (tbl : Table) (op : DbOp) (h : Hash)
    (hk : ∃ r ∈ tbl, r.1 = h) : ∃ r ∈ applyOp tbl op, r.1 = h := by
  cases op with
  | addOp keep h2 now =>
    rw [show applyOp tbl (DbOp.addOp keep h2 now) = (DB.Add keep tbl h2 now).2 from rfl,
      dbAdd_table]
    exact upsertRow_mono h2 h now tbl hk
  | hasOp h2 now =>
    rw [show applyOp tbl (DbOp.hasOp h2 now) = (DB.Has tbl h2 now).2 from rfl, dbHas_table]
    obtain ⟨r, hr, he⟩ := hk
    refine ⟨if r.1 = h2 then (r.1, now) else r, List.mem_map_of_mem _ hr, ?_⟩
    split <;> simp [he]

/-- Every key present in the table survives any later sequence of
operations. -/
theorem applyOps_mono (tbl : Table) (ops : List DbOp) (h : Hash)
    (hk : ∃ r ∈ tbl, r.1 = h) : ∃ r ∈ applyOps tbl ops, r.1 = h := by
  induction ops generalizing tbl with
  | nil => exact hk
  | cons op rest ih =>
    rw [show applyOps tbl (op :: rest) = applyOps (applyOp tbl op) rest from rfl]
    exact ih (applyOp tbl op) (applyOp_mono tbl op h hk)

/-! ## Claims about the hash store -/

/-- Claim C1: with a retention window D configured, the claim says an entry
added at time T and never re-accessed is absent after a subsequent Add at a
time at least T + D, and still present after one before T + D.  The code
contradicts the first half: the eviction step of DB.Add re-executes the
upsert statement text q, not the deletion text q2, binding a single
parameter to a two-placeholder statement, which fails, so the DELETE never
runs.  Concretely, with D = 1, the entry added at time 0 is still present
after an Add at time 5, and Add reports an eviction error. -/
theorem claim_C1_stale_entry_not_evicted :
    (([0], (0 : Int)) ∈ (DB.Add 1 ((DB.Add 1 [] [0] 0).2) [1] 5).2)
      ∧ (DB.Add 1 ((DB.Add 1 [] [0] 0).2) [1] 5).1.isOk = false := by
  decide

/-- Claim C2: the claim says Add fails only on underlying storage
malfunction, in particular returning no error on a functioning store when a
retention window is configured.  The code contradicts this: with any
positive window, the eviction step binds one parameter to the
two-placeholder upsert statement text, so every Add reports a wrapped
eviction error, even though the upsert itself succeeded and the entry is
present. -/
theorem claim_C2_add_errors_with_keep :
    (DB.Add 1 [] [0] 0).1
        = Except.error ("evicting expired database entries: wrong number of arguments")
      ∧ (([0] : Hash), (0 : Int)) ∈ (DB.Add 1 [] [0] 0).2 :=
  ⟨rfl, by decide⟩

/-- Claim C5: after a successful Add of a hash, a later Has of the same hash
answers true, across any sequence of operations against the same persisted
table, including reopening with different options; and a Has of an absent
hash answers false without an error.  The model makes the stronger fact
visible: no operation ever deletes a row, because the eviction DELETE is
never executed, so presence holds even beyond a configured retention
window and the unless-elapsed allowance of the claim is not exercised. -/
theorem claim_C5_add_then_has (tbl : Table) (h : Hash) (now t keep : Int) (ops : List DbOp) :
    ((DB.Add keep tbl h now).1.isOk = true →
       (DB.Has (applyOps (DB.Add keep tbl h now).2 ops) h t).1 = Except.ok true)
    ∧ ((∀ r ∈ tbl, r.1 ≠ h) → (DB.Has tbl h now).1 = Except.ok false) := by
  constructor
  · intro _
    apply dbHas_ok_true
    apply applyOps_mono
    rw [dbAdd_table]
    exact upsertRow_hasKey h now tbl
  · intro habs
    rw [dbHas_fst]
    have hz : tbl.countP (fun r => decide (r.1 = h)) = 0 := by
      rw [List.countP_eq_zero]
      intro r hr
      simp [habs r hr]
    simp [hz]

/-- Concrete instance of the add-then-has theorem: an Add without a window
succeeds, the hash answers true after further operations, and a fresh hash
answers false without an error. -/
theorem claim_C5_witness :
    ((DB.Add 0 [] [0] 0).1.isOk = true
      ∧ (DB.Has (applyOps (DB.Add 0 [] [0] 0).2 [DbOp.addOp 0 [1] 3, DbOp.hasOp [2] 4]) [0] 9).1
          = Except.ok true)
    ∧ ((∀ r ∈ ([] : Table), r.1 ≠ [5]) ∧ (DB.Has ([] : Table) [5] 2).1 = Except.ok false) :=
  ⟨⟨by decide,
    (claim_C5_add_then_has [] [0] 0 9 0 [DbOp.addOp 0 [1] 3, DbOp.hasOp [2] 4]).1 (by decide)⟩,
   ⟨by decide, (claim_C5_add_then_has [] [5] 2 2 0 []).2 (by decide)⟩⟩

/-! ## Claims about the skip engine -/

/-- Claim C3: if Rule.Run fails, or the pre-build or post-build ContentHash
computation fails, then DB.Add is never called in that invocation, and the
error is propagated to the caller wrapped with context. -/
theorem claim_C3_no_add_on_failure (env : RunEnv) :
    (∀ e, env.contentHash1 = Except.error e →
       fnRun env = ⟨Except.error ("computing content hash: " ++ e), false, []⟩)
    ∧ (∀ h e, env.contentHash1 = Except.ok h → env.hasRes h = Except.ok false →
       env.runRes = Except.error e →
       fnRun env = ⟨Except.error ("in Run: " ++ e), true, []⟩)
    ∧ (∀ h e, env.contentHash1 = Except.ok h → env.hasRes h = Except.ok false →
       env.runRes = Except.ok () → env.contentHash2 = Except.error e →
       fnRun env = ⟨Except.error ("recomputing content hash: " ++ e), true, []⟩) := by
  refine ⟨?_, ?_, ?_⟩ <;> intros <;> simp [fnRun, *]

/-- Concrete instance of the no-add-on-failure theorem: a failing build is
not recorded and its error comes back wrapped. -/
theorem claim_C3_witness :
    envRunFails.contentHash1 = Except.ok [0]
      ∧ envRunFails.hasRes [0] = Except.ok false
      ∧ envRunFails.runRes = Except.error ("boom")
      ∧ fnRun envRunFails = ⟨Except.error ("in Run: " ++ "boom"), true, []⟩ :=
  ⟨rfl, rfl, rfl,
   (claim_C3_no_add_on_failure envRunFails).2.1 [0] ("boom") rfl rfl rfl⟩

/-- Claim C4: when the pre-build content hash is computed successfully and
the store already has it, Fn.Run returns success without invoking Rule.Run
and without calling DB.Add. -/
theorem claim_C4_cache_hit_skips (env : RunEnv) (h : Hash)
    (h1 : env.contentHash1 = Except.ok h) (h2 : env.hasRes h = Except.ok true) :
    fnRun env = ⟨Except.ok (), false, []⟩ := by
  simp [fnRun, h1, h2]

/-- Concrete instance of the cache-hit theorem. -/
theorem claim_C4_witness :
    envHit.contentHash1 = Except.ok [0] ∧ envHit.hasRes [0] = Except.ok true
      ∧ fnRun envHit = ⟨Except.ok (), false, []⟩ :=
  ⟨rfl, rfl, claim_C4_cache_hit_skips envHit [0] rfl rfl⟩

/-- Claim C10: Run spawns Command[0] with arguments Command[1:] in the
configured working directory, and under the precondition that the command is
non-empty these accesses are in bounds and Run does not panic: it produces a
spawn request rather than the none that models the panic. -/
theorem claim_C10_run_spawns_head_tail (jr : JRule) (exe : String) (rest : List String)
    (hcmd : jr.Command = exe :: rest) :
    jr.Run = some ⟨exe, rest, jr.Dir⟩ ∧ (jr.Run).isSome = true := by
  constructor
  · simp [JRule.Run, hcmd]
  · simp [JRule.Run, hcmd]

/-- Concrete instance of the Run theorem. -/
theorem claim_C10_witness :
    JRule.Run ⟨["s"], ["t"], ["cp", "s", "t"], "wd"⟩ = some ⟨"cp", ["s", "t"], "wd"⟩
      ∧ (JRule.Run ⟨["s"], ["t"], ["cp", "s", "t"], "wd"⟩).isSome = true :=
  claim_C10_run_spawns_head_tail ⟨["s"], ["t"], ["cp", "s", "t"], "wd"⟩ ("cp") ["s", "t"] rfl

/-! ## File hashing lemmas -/

/-- Two snapshots agreeing on a list of files produce the same per-file
hashes. -/
theorem fill_congr (fs1 fs2 : FS) (files : List String)
    (hagree : ∀ p ∈ files, fs1 p = fs2 p) :
    fillWithFileHashes fs1 files = fillWithFileHashes fs2 files := by
  induction files with
  | nil => rfl
  | cons f rest ih =>
    have hf : fs1 f = fs2 f := hagree f (by simp)
    have hrest := ih (fun p hp => hagree p (by simp [hp]))
    simp only [fillWithFileHashes, hashFile, hf, hrest]

/-- When no file of the list is unreadable, hashing succeeds and every absent
file is bound to the nil hash. -/
theorem fill_ok_of_no_unreadable (fs : FS) (files : List String)
    (hno : ∀ p ∈ files, (fs p).isUnreadable = false) :
    ∃ m, fillWithFileHashes fs files = Except.ok m ∧
      ∀ p ∈ files, fs p = FileState.absent → (p, (none : Option Hash)) ∈ m := by
  induction files with
  | nil => exact ⟨[], rfl, by simp⟩
  | cons f rest ih =>
    obtain ⟨m, hm, habs⟩ := ih (fun p hp => hno p (by simp [hp]))
    have hf := hno f (by simp)
    cases hfs : fs f with
    | absent =>
      refine ⟨(f, none) :: m, ?_, ?_⟩
      · simp [fillWithFileHashes, hashFile, hfs, hm, Except.map]
      · intro p hp hpabs
        rcases List.mem_cons.mp hp with hc | hc
        · subst hc
          simp
        · simp [habs p hc hpabs]
    | unreadable msg =>
      rw [hfs] at hf
      simp [FileState.isUnreadable] at hf
    | present bytes =>
      refine ⟨(f, some (sha256 bytes)) :: m, ?_, ?_⟩
      · simp [fillWithFileHashes, hashFile, hfs, hm, Except.map]
      · intro p hp hpabs
        rcases List.mem_cons.mp hp with hc | hc
        · subst hc
          simp [hfs] at hpabs
        · simp [habs p hc hpabs]

/-- When some file of the list is unreadable, hashing aborts with an
error. -/
theorem fill_error_of_unreadable (fs : FS) (files : List String)
    (hsome : ∃ p ∈ files, (fs p).isUnreadable = true) :
    ∃ e, fillWithFileHashes fs files = Except.error e := by
  induction files with
  | nil => simp at hsome
  | cons f rest ih =>
    cases hfs : fs f with
    | unreadable msg =>
      refine ⟨"computing hash of " ++ f ++ ": " ++ ("opening " ++ f ++ ": " ++ msg), ?_⟩
      simp [fillWithFileHashes, hashFile, hfs]
    | absent =>
      have hrest : ∃ p ∈ rest, (fs p).isUnreadable = true := by
        obtain ⟨p, hp, hu⟩ := hsome
        rcases List.mem_cons.mp hp with hc | hc
        · subst hc
          rw [hfs] at hu
          simp [FileState.isUnreadable] at hu
        · exact ⟨p, hc, hu⟩
      obtain ⟨e, he⟩ := ih hrest
      exact ⟨e, by simp [fillWithFileHashes, hashFile, hfs, he, Except.map]⟩
    | present bytes =>
      have hrest : ∃ p ∈ rest, (fs p).isUnreadable = true := by
        obtain ⟨p, hp, hu⟩ := hsome
        rcases List.mem_cons.mp hp with hc | hc
        · subst hc
          rw [hfs] at hu
          simp [FileState.isUnreadable] at hu
        · exact ⟨p, hc, hu⟩
      obtain ⟨e, he⟩ := ih hrest
      exact ⟨e, by simp [fillWithFileHashes, hashFile, hfs, he, Except.map]⟩

/-! ## Claims about the rule hashes -/

/-- Claim C6: RuleHash is invariant under permutation of the sources and of
the targets; it takes no filesystem argument in the embedding, mirroring the
source, which reads no files, so the digest is independent of file contents;
and whenever the sources change other than by permutation, or the targets
change other than by permutation, or any command token changes, the canonical
serialization RuleHash digests changes, so the digest changes short of a
SHA-256 collision. -/
theorem claim_C6_ruleHash_invariance :
    (∀ (jr : JRule) (s t : List String), s.Perm jr.Sources → t.Perm jr.Targets →
       JRule.RuleHash { jr with Sources := s, Targets := t } = jr.RuleHash)
    ∧ (∀ jr1 jr2 : JRule,
       (¬ jr1.Sources.Perm jr2.Sources ∨ ¬ jr1.Targets.Perm jr2.Targets
           ∨ jr1.Command ≠ jr2.Command) →
       ruleHashJson jr1 ≠ ruleHashJson jr2) := by
  constructor
  · intro jr s t hs ht
    unfold JRule.RuleHash ruleHashJson
    rw [show ({ jr with Sources := s, Targets := t } : JRule).Sources = s from rfl,
      show ({ jr with Sources := s, Targets := t } : JRule).Targets = t from rfl,
      show ({ jr with Sources := s, Targets := t } : JRule).Command = jr.Command from rfl,
      sortStrings_eq_of_perm s jr.Sources hs, sortStrings_eq_of_perm t jr.Targets ht]
  · intro jr1 jr2 hne heq
    unfold ruleHashJson at heq
    simp only [CJ.obj.injEq, List.cons.injEq, Prod.mk.injEq, CJ.arr.injEq, CJ.str.injEq,
      true_and, and_true] at heq
    obtain ⟨hcmd, hsrc, htgt⟩ := heq
    rcases hne with hs | ht | hc
    · exact hs (perm_of_sortStrings_eq jr1.Sources jr2.Sources (map_str_inj _ _ hsrc))
    · exact ht (perm_of_sortStrings_eq jr1.Targets jr2.Targets (map_str_inj _ _ htgt))
    · exact hc (map_str_inj _ _ hcmd)

/-- Concrete instance of the RuleHash invariance theorem: permuting the
sources leaves the digest unchanged, and replacing a source path changes the
serialized digest input. -/
theorem claim_C6_witness :
    (List.Perm ["b", "a"] ["a", "b"] ∧ List.Perm ["t"] ["t"]
      ∧ JRule.RuleHash ⟨["b", "a"], ["t"], ["c"], ""⟩
          = JRule.RuleHash ⟨["a", "b"], ["t"], ["c"], ""⟩)
    ∧ (¬ List.Perm ["a"] ["x"]
      ∧ ruleHashJson ⟨["a"], [], [], ""⟩ ≠ ruleHashJson ⟨["x"], [], [], ""⟩) :=
  ⟨⟨by decide, by decide,
    claim_C6_ruleHash_invariance.1 ⟨["a", "b"], ["t"], ["c"], ""⟩ ["b", "a"] ["t"]
      (by decide) (by decide)⟩,
   ⟨by decide,
    claim_C6_ruleHash_invariance.2 ⟨["a"], [], [], ""⟩ ⟨["x"], [], [], ""⟩
      (Or.inl (by decide))⟩⟩

/-- Claim C7: ContentHash is deterministic: on identical filesystem state, in
particular identical bytes and existence status of every declared source and
target file, two computations yield identical results. -/
theorem claim_C7_contentHash_deterministic (jr : JRule) (fs1 fs2 : FS)
    (hagree : ∀ p ∈ jr.Sources ++ jr.Targets, fs1 p = fs2 p) :
    jr.ContentHash fs1 = jr.ContentHash fs2 := by
  have hs : ∀ p ∈ jr.Sources, fs1 p = fs2 p :=
    fun p hp => hagree p (List.mem_append_left _ hp)
  have ht : ∀ p ∈ jr.Targets, fs1 p = fs2 p :=
    fun p hp => hagree p (List.mem_append_right _ hp)
  unfold JRule.ContentHash contentHashJson
  rw [fill_congr fs1 fs2 jr.Sources hs, fill_congr fs1 fs2 jr.Targets ht]

/-- Concrete instance of the determinism theorem: two snapshots identical on
the declared files give identical content hashes. -/
theorem claim_C7_witness :
    (∀ p ∈ ["a", "b"] ++ ["t"], fsW1 p = fsW2 p)
      ∧ JRule.ContentHash ⟨["a", "b"], ["t"], ["c"], ""⟩ fsW1
          = JRule.ContentHash ⟨["a", "b"], ["t"], ["c"], ""⟩ fsW2 :=
  ⟨by decide,
   claim_C7_contentHash_deterministic ⟨["a", "b"], ["t"], ["c"], ""⟩ fsW1 fsW2 (by decide)⟩

/-- Every absent file of the list is bound to the nil hash in a successful
hashing result. -/
theorem fill_mem_none (fs : FS) (files : List String) (m : List (String × Option Hash))
    (hfill : fillWithFileHashes fs files = Except.ok m) :
    ∀ p ∈ files, fs p = FileState.absent → (p, (none : Option Hash)) ∈ m := by
  induction files generalizing m with
  | nil =>
    intro p hp
    simp at hp
  | cons f rest ih =>
    intro p hp hpabs
    cases hfs : fs f with
    | unreadable msg =>
      simp only [fillWithFileHashes, hashFile, hfs] at hfill
      simp at hfill
    | absent =>
      simp only [fillWithFileHashes, hashFile, hfs] at hfill
      cases hrest : fillWithFileHashes fs rest with
      | error e =>
        rw [hrest] at hfill
        simp [Except.map] at hfill
      | ok m2 =>
        rw [hrest] at hfill
        simp only [Except.map, Except.ok.injEq] at hfill
        subst hfill
        rcases List.mem_cons.mp hp with hc | hc
        · subst hc
          exact List.mem_cons_self _ _
        · exact List.mem_cons_of_mem _ (ih m2 hrest p hc hpabs)
    | present bytes =>
      simp only [fillWithFileHashes, hashFile, hfs] at hfill
      cases hrest : fillWithFileHashes fs rest with
      | error e =>
        rw [hrest] at hfill
        simp [Except.map] at hfill
      | ok m2 =>
        rw [hrest] at hfill
        simp only [Except.map, Except.ok.injEq] at hfill
        subst hfill
        rcases List.mem_cons.mp hp with hc | hc
        · subst hc
          simp [hfs] at hpabs
        · exact List.mem_cons_of_mem _ (ih m2 hrest p hc hpabs)

/-- Claim C8: during ContentHash a declared file that does not exist is not
an error: hashing succeeds and the absent file is bound to the nil hash,
which serializes as the null marker in the digest input; any other read
failure on a declared file aborts ContentHash with an error. -/
theorem claim_C8_missing_null_unreadable_error (jr : JRule) (fs : FS) :
    ((∀ p ∈ jr.Sources ++ jr.Targets, (fs p).isUnreadable = false) →
       ∃ h, jr.ContentHash fs = Except.ok h)
    ∧ ((∃ p ∈ jr.Sources ++ jr.Targets, (fs p).isUnreadable = true) →
       ∃ e, jr.ContentHash fs = Except.error e)
    ∧ (∀ files m, fillWithFileHashes fs files = Except.ok m →
       ∀ p ∈ files, fs p = FileState.absent →
         (p, (none : Option Hash)) ∈ m ∧ optHashJson none = CJ.null) := by
  refine ⟨?_, ?_, ?_⟩
  · intro hno
    have hs : ∀ p ∈ jr.Sources, (fs p).isUnreadable = false :=
      fun p hp => hno p (List.mem_append_left _ hp)
    have ht : ∀ p ∈ jr.Targets, (fs p).isUnreadable = false :=
      fun p hp => hno p (List.mem_append_right _ hp)
    obtain ⟨ms, hms, _⟩ := fill_ok_of_no_unreadable fs jr.Sources hs
    obtain ⟨mt, hmt, _⟩ := fill_ok_of_no_unreadable fs jr.Targets ht
    refine ⟨sha256 (strBytes (CJ.encode (CJ.obj
      [("command", CJ.arr (jr.Command.map CJ.str)), ("sources", CJ.obj (mapToObj ms)),
       ("targets", CJ.obj (mapToObj mt))]))), ?_⟩
    simp [JRule.ContentHash, contentHashJson, hms, hmt, Except.map]
  · intro hsome
    obtain ⟨p, hp, hu⟩ := hsome
    rcases List.mem_append.mp hp with hps | hpt
    · obtain ⟨e, he⟩ := fill_error_of_unreadable fs jr.Sources ⟨p, hps, hu⟩
      refine ⟨"computing source hash(es): " ++ e, ?_⟩
      simp [JRule.ContentHash, contentHashJson, he, Except.map]
    · obtain ⟨e, he⟩ := fill_error_of_unreadable fs jr.Targets ⟨p, hpt, hu⟩
      cases hs : fillWithFileHashes fs jr.Sources with
      | error e2 =>
        refine ⟨"computing source hash(es): " ++ e2, ?_⟩
        simp [JRule.ContentHash, contentHashJson, hs, Except.map]
      | ok ms =>
        refine ⟨"computing target hash(es): " ++ e, ?_⟩
        simp [JRule.ContentHash, contentHashJson, hs, he, Except.map]
  · intro files m hfill p hp hpabs
    exact ⟨fill_mem_none fs files m hfill p hp hpabs, rfl⟩

/-- Concrete instance of the missing-versus-unreadable theorem: with an
absent target, hashing succeeds and binds the target to the null marker;
with an unreadable target, ContentHash fails. -/
theorem claim_C8_witness :
    ((∀ p ∈ jrC8.Sources ++ jrC8.Targets, (fsC8ok p).isUnreadable = false)
      ∧ ∃ h, jrC8.ContentHash fsC8ok = Except.ok h)
    ∧ ((∃ p ∈ jrC8.Sources ++ jrC8.Targets, (fsC8bad p).isUnreadable = true)
      ∧ ∃ e, jrC8.ContentHash fsC8bad = Except.error e)
    ∧ (fillWithFileHashes fsC8ok ["a", "b"]
          = Except.ok [("a", some (sha256 [1])), ("b", none)]
      ∧ ("b", (none : Option Hash)) ∈ [("a", some (sha256 [1])), ("b", (none : Option Hash))]
      ∧ optHashJson none = CJ.null) :=
  ⟨⟨by decide, (claim_C8_missing_null_unreadable_error jrC8 fsC8ok).1 (by decide)⟩,
   ⟨by decide, (claim_C8_missing_null_unreadable_error jrC8 fsC8bad).2.1 (by decide)⟩,
   rfl,
   ((claim_C8_missing_null_unreadable_error jrC8 fsC8ok).2.2
      ["a", "b"] [("a", some (sha256 [1])), ("b", none)] rfl ("b") (by decide) (by decide)).1,
   ((claim_C8_missing_null_unreadable_error jrC8 fsC8ok).2.2
      ["a", "b"] [("a", some (sha256 [1])), ("b", none)] rfl ("b") (by decide) (by decide)).2⟩

/-- Claim C9: RuleHash and ContentHash ignore the working directory: two
rules differing only in Dir have equal rule hashes and, on the same
filesystem snapshot, equal content hashes; consequently, when the store has
the hash recorded for one of them, the skip engine invoked with the rule
under the other working directory takes the cache-hit path: success without
running the rule and without adding. -/
theorem claim_C9_dir_independent (jr : JRule) (d : String) :
    JRule.RuleHash { jr with Dir := d } = jr.RuleHash
    ∧ (∀ fs, JRule.ContentHash { jr with Dir := d } fs = jr.ContentHash fs)
    ∧ (∀ (fs : FS) (h : Hash) (hasF : Hash → Except String Bool)
        (runR : Except String Unit) (ch2 : Except String Hash)
        (addF : Hash → Except String Unit),
       jr.ContentHash fs = Except.ok h → hasF h = Except.ok true →
       fnRun ⟨JRule.ContentHash { jr with Dir := d } fs, hasF, runR, ch2, addF⟩
         = ⟨Except.ok (), false, []⟩) := by
  refine ⟨rfl, fun fs => rfl, ?_⟩
  intro fs h hasF runR ch2 addF hch hhas
  have hch2 : JRule.ContentHash { jr with Dir := d } fs = Except.ok h := hch
  simp [fnRun, hch2, hhas]

/-- Concrete instance of the working-directory independence theorem. -/
theorem claim_C9_witness :
    JRule.RuleHash ⟨[], [], ["c"], "y"⟩ = JRule.RuleHash jrC9
    ∧ jrC9.ContentHash fsC9 = Except.ok hC9
    ∧ fnRun ⟨JRule.ContentHash ⟨[], [], ["c"], "y"⟩ fsC9, fun _ => Except.ok true,
        Except.ok (), Except.ok [], fun _ => Except.ok ()⟩ = ⟨Except.ok (), false, []⟩ :=
  ⟨(claim_C9_dir_independent jrC9 ("y")).1, rfl,
   (claim_C9_dir_independent jrC9 ("y")).2.2 fsC9 hC9 (fun _ => Except.ok true)
     (Except.ok ()) (Except.ok []) (fun _ => Except.ok ()) rfl rfl⟩

end Mghash
